import Mathlib

set_option maxHeartbeats 1000000
set_option maxRecDepth 40000

deriving instance DecidableEq for Except

namespace Phonics

/-- Strings of the TypeScript source are modelled as lists of characters. -/
abbrev Str := List Char

/-- Build a `Str` from a Lean string literal. -/
def strOf (s : String) : Str := s.data

/-- JavaScript `String.prototype.toLowerCase`, per-character lowering. -/
def lower (s : Str) : Str := s.map Char.toLower

/-- JavaScript `String.prototype.includes`: `hasSub pat s` is true iff `pat`
occurs contiguously inside `s`. -/
def hasSub (pat : Str) : Str → Bool
  | [] => pat.isEmpty
  | c :: rest => pat.isPrefixOf (c :: rest) || hasSub pat rest

/-- First loop of `findBestColumnMatch` (fileService.ts lines 104-108): for each
candidate name in priority order, the first header equal to it case-insensitively. -/
def exactPhase (availableHeaders possibleNames : List Str) : Option Str :=
  possibleNames.findSome? fun name =>
    availableHeaders.find? fun h => decide (lower h = lower name)

/-- Second loop of `findBestColumnMatch` (fileService.ts lines 110-114): for each
candidate name in priority order, the first header containing it as a substring. -/
def containsPhase (availableHeaders possibleNames : List Str) : Option Str :=
  possibleNames.findSome? fun name =>
    availableHeaders.find? fun h => hasSub (lower name) (lower h)

/-- Third loop of `findBestColumnMatch` (fileService.ts lines 116-122): the first
header such that some candidate name contains it or it contains some candidate. -/
def fuzzyPhase (availableHeaders possibleNames : List Str) : Option Str :=
  availableHeaders.find? fun h =>
    possibleNames.any fun name =>
      hasSub (lower h) (lower name) || hasSub (lower name) (lower h)

/-- fileService.ts lines 101-125: find the best column match from a list of
possible names, trying exact matches, then substring matches, then fuzzy matches. -/
def findBestColumnMatch (availableHeaders possibleNames : List Str) : Option Str :=
  match exactPhase availableHeaders possibleNames with
  | some h => some h
  | none =>
    match containsPhase availableHeaders possibleNames with
    | some h => some h
    | none => fuzzyPhase availableHeaders possibleNames

/-- A candidate name matches a header by any of the three rules of
`findBestColumnMatch` (exact, substring, fuzzy). -/
def matchesAnyRule (name h : Str) : Bool :=
  decide (lower h = lower name) || hasSub (lower name) (lower h) ||
    hasSub (lower h) (lower name)

/-- A text item of a PDF page: its string and the rendered height reported by
the PDF text layer (fileService.ts lines 152-157). -/
structure PdfItem where
  str : Str
  height : ℚ
deriving DecidableEq

/-- JavaScript `String.prototype.trim`. -/
def jsTrim (s : Str) : Str :=
  ((s.dropWhile Char.isWhitespace).reverse.dropWhile Char.isWhitespace).reverse

/-- JavaScript `Math.round`: round half toward positive infinity, that is,
the floor of `q + 1/2`, computed on the numerator and denominator so that it
evaluates by kernel reduction; `jsRound_eq_round` below proves it equal to
`⌊q + 1/2⌋`. -/
def jsRound (q : ℚ) : ℤ := (2 * q.num + (q.den : ℤ)) / ((2 * q.den : ℕ) : ℤ)

/-- Number of positions at which `pat` occurs in `text`. fileService.ts counts
occurrences of the fixed header phrases via `split`, which counts leftmost
non-overlapping occurrences; none of those phrases overlaps itself, so the two
counts coincide. -/
def countOcc (pat : Str) : Str → Nat
  | [] => 0
  | c :: rest =>
    (if pat ≠ [] ∧ pat.isPrefixOf (c :: rest) = true then 1 else 0) + countOcc pat rest

/-- Number of maximal whitespace runs in a string; splitting on runs of
whitespace in JavaScript yields this plus one parts (fileService.ts line 177). -/
def countWsRuns : Bool → Str → Nat
  | _, [] => 0
  | inWs, c :: rest =>
    if c.isWhitespace then (if inWs then 0 else 1) + countWsRuns true rest
    else countWsRuns false rest

/-- fileService.ts line 168: fixed header/instruction phrases. -/
def headerTerms : List Str :=
  [strOf "published by", strOf "practice sheet", strOf "instructions",
   strOf "teacher guide"]

/-- fileService.ts line 213: tokens excluded from PDF word candidates. -/
def excludeList : List Str :=
  [strOf "the", strOf "and", strOf "for", strOf "are", strOf "but", strOf "not",
   strOf "you", strOf "all", strOf "can", strOf "had", strOf "her", strOf "was",
   strOf "one", strOf "our", strOf "out", strOf "day", strOf "get", strOf "has",
   strOf "him", strOf "his", strOf "how", strOf "its", strOf "may", strOf "new",
   strOf "now", strOf "old", strOf "see", strOf "two", strOf "way", strOf "who",
   strOf "practice", strOf "sheet", strOf "familiarisation", strOf "before",
   strOf "begins", strOf "labelled", strOf "student", strOf "materials"]

/-- fileService.ts line 231: ultra-common short words suppressed when they
would land among the first 4 accepted words. -/
def practiceWords : List Str :=
  [strOf "it", strOf "on", strOf "in", strOf "at", strOf "up", strOf "if",
   strOf "is", strOf "as", strOf "by", strOf "or", strOf "so", strOf "no",
   strOf "go", strOf "do", strOf "to", strOf "me", strOf "my", strOf "he",
   strOf "she", strOf "we", strOf "be"]

/-- Insert into an ascending list of sizes, modelling the ascending numeric
enumeration of integer-like keys of the font-size tally object. -/
def insertAsc (x : ℤ) : List ℤ → List ℤ
  | [] => [x]
  | y :: ys => if x ≤ y then x :: y :: ys else y :: insertAsc x ys

/-- Distinct rounded sizes in ascending order. -/
def sortedKeys (l : List ℤ) : List ℤ :=
  l.foldl (fun acc x => if x ∈ acc then acc else insertAsc x acc) []

/-- Stable insertion by descending count: the element lands after all existing
entries with a count greater than or equal to its own. -/
def insertByCountDesc (x : ℤ × ℕ) : List (ℤ × ℕ) → List (ℤ × ℕ)
  | [] => [x]
  | y :: ys => if y.2 < x.2 then x :: y :: ys else y :: insertByCountDesc x ys

/-- Stable descending-by-count sort, as the stable JavaScript array sort of
fileService.ts lines 193-195 over the ascending tally. -/
def stableSortByCountDesc (l : List (ℤ × ℕ)) : List (ℤ × ℕ) :=
  l.foldl (fun acc x => insertByCountDesc x acc) []

/-- fileService.ts lines 186-196: tally the rounded heights and keep the two
most frequent sizes. -/
def commonSizes (fontSizes : List ℤ) : List ℤ :=
  let tally := (sortedKeys fontSizes).map fun k => (k, fontSizes.count k)
  ((stableSortByCountDesc tally).take 2).map Prod.fst

/-- Cross-page accumulator of the PDF extractor: the `seenWords` set and the
`allWords` list of fileService.ts lines 141-142. -/
structure PdfScan where
  seen : List Str
  allWords : List Str
deriving DecidableEq

/-- fileService.ts line 231: a candidate that would land among the first 4
accepted words and is an ultra-common short word. -/
def isLikelyPracticeWord (st : PdfScan) (word : Str) : Bool :=
  decide (st.allWords.length < 4) && decide (word.length ≤ 3) &&
    decide (lower word ∈ practiceWords)

/-- fileService.ts lines 225-239: record one candidate word, deduplicating
case-insensitively and suppressing leading practice words. -/
def processWord (st : PdfScan) (word : Str) : PdfScan :=
  if lower word ∈ st.seen then st
  else
    let st' : PdfScan := { st with seen := lower word :: st.seen }
    if isLikelyPracticeWord st word then st'
    else { st' with allWords := st'.allWords ++ [word] }

/-- fileService.ts lines 204-220: keep a token if it is 2-20 characters,
purely alphabetic, unseen (against the seen-set as of the start of the page),
and not in the fixed exclusion list. -/
def isCandidateWord (seen : List Str) (text : Str) : Bool :=
  let cleanText := jsTrim (lower text)
  let isValidWord :=
    decide (2 ≤ cleanText.length) && decide (cleanText.length ≤ 20) &&
      cleanText.all Char.isAlpha && !(decide (cleanText ∈ seen))
  if decide (cleanText ∈ excludeList) then false else isValidWord

/-- fileService.ts lines 144-240: process one page's text items, threading the
global seen-set and accepted-word accumulator. The ratio test models
`headerWordCount > totalWords * 0.8` over the rationals. -/
def processPage (st : PdfScan) (items : List PdfItem) : PdfScan :=
  let pageText := (items.map fun it => PdfItem.mk (jsTrim it.str) it.height).filter
    fun it => decide (it.str ≠ [])
  let fullPageText := List.intercalate [' '] (pageText.map fun it => lower it.str)
  let hasManyHeaders := headerTerms.any fun t => decide (2 ≤ countOcc t fullPageText)
  let tooShort := decide (fullPageText.length < 50)
  let headerWordCount := (headerTerms.map fun t => countOcc t fullPageText).sum
  let totalWords := countWsRuns false fullPageText + 1
  let mostlyHeaders := decide (4 * totalWords < 5 * headerWordCount)
  if hasManyHeaders || tooShort || mostlyHeaders then st
  else
    let sizes := commonSizes (pageText.map fun it => jsRound it.height)
    let pageWords := ((pageText.filter fun it => decide (jsRound it.height ∈ sizes)).map
      fun it => it.str).filter (isCandidateWord st.seen)
    pageWords.foldl processWord st

/-- Errors of the PDF extraction pipeline (fileService.ts lines 245-247 and
266-268); the source formats them into messages carrying the same data. -/
inductive PdfError where
  | noWords
  | tooFew (count : ℕ) (sample : List Str)
deriving DecidableEq

/-- fileService.ts lines 250-263: positional trimming of practice words. -/
def selectBranch (allWords : List Str) : List Str :=
  if 44 < allWords.length then (allWords.drop 4).take 40
  else if 40 ≤ allWords.length then allWords.drop (allWords.length - 40)
  else allWords

/-- fileService.ts lines 250-273: the kept word list — positional trimming
followed by truncation to at most 40 words (the source truncates only when
longer than 40, which yields the same list). -/
def selectFinalWords (allWords : List Str) : List Str :=
  (selectBranch allWords).take 40

/-- fileService.ts lines 245-273: zero-candidate check, positional trimming,
minimum-count check, truncation. -/
def pdfFinalize (allWords : List Str) : Except PdfError (List Str) :=
  if allWords = [] then .error .noWords
  else
    let finalWords := selectBranch allWords
    if finalWords.length < 20 then
      .error (.tooFew finalWords.length (finalWords.take 10))
    else .ok (finalWords.take 40)

/-- fileService.ts lines 141-243: accumulate candidate words over all pages. -/
def extractCandidates (pages : List (List PdfItem)) : List Str :=
  (pages.foldl processPage ⟨[], []⟩).allWords

/-- The word-list result of `parsePhonicsPdf` (fileService.ts lines 127-295),
from the per-page text items to the final kept words. -/
def parsePhonicsPdfWords (pages : List (List PdfItem)) : Except PdfError (List Str) :=
  pdfFinalize (extractCandidates pages)

/-- The four leading two-letter common words of the synthetic document. -/
def practiceFour : List Str := [strOf "it", strOf "on", strOf "in", strOf "at"]

/-- Forty distinct valid words of the synthetic document. -/
def sample40 : List Str :=
  [strOf "sat", strOf "pin", strOf "tap", strOf "met", strOf "dog", strOf "red",
   strOf "mud", strOf "leg", strOf "bus", strOf "jam", strOf "fog", strOf "bed",
   strOf "cup", strOf "hen", strOf "lip", strOf "map", strOf "net", strOf "pig",
   strOf "rat", strOf "sun", strOf "ten", strOf "van", strOf "wig", strOf "yak",
   strOf "zip", strOf "bag", strOf "cot", strOf "dim", strOf "fan", strOf "gum",
   strOf "hat", strOf "jet", strOf "kit", strOf "log", strOf "mop", strOf "nut",
   strOf "pan", strOf "rug", strOf "sip", strOf "tub"]

/-- A synthetic one-page document: 4 two-letter common words followed by 40
distinct valid words, all at one dominant font size. -/
def samplePage : List PdfItem := (practiceFour ++ sample40).map fun s => ⟨s, 10⟩

/-- A list of 46 candidate words. -/
def sampleCandidates46 : List Str := (List.range 46).map fun _ => strOf "w"

/-- types.ts: per-word assessment outcome kind. -/
inductive ResultKind where
  | correct
  | incorrect
  | not_attempted
deriving DecidableEq

/-- types.ts: a word of a phonics set. -/
structure PhonicsWord where
  item : Str
  graphemeType : Str
deriving DecidableEq

/-- types.ts: the recorded outcome for one word. -/
structure WordResult where
  word : PhonicsWord
  result : ResultKind
  note : Option Str
deriving DecidableEq

instance : Inhabited WordResult := ⟨⟨⟨[], []⟩, .not_attempted, none⟩⟩

/-- types.ts: status of a check. -/
inductive CheckStatus where
  | completed
  | not_done
  | in_progress
deriving DecidableEq

/-- types.ts: an assessment record. -/
structure CheckResult where
  id : Str
  studentId : Str
  studentName : Str
  nsn : Str
  teacher : Str
  date : Str
  school : Str
  location : Str
  phonicsSetId : Str
  phonicsSetName : Str
  checkType : Str
  status : CheckStatus
  results : List WordResult
  overallComment : Option Str
  reasonNotDone : Option Str
  score : ℕ
  percentage : ℚ
deriving DecidableEq

/-- App.tsx lines 43-71: complete an assessment over the phonics set's words;
outcomes missing beyond the recorded ones are back-filled as not_attempted,
and score and percentage are recomputed (percentage over the rationals, as the
word count of a real set is positive). -/
def handleAssessmentComplete (currentCheck : CheckResult)
    (setWords : List PhonicsWord) (results : List WordResult)
    (comment : Str) : CheckResult :=
  let paddedResults := results ++ (setWords.drop results.length).map fun w =>
    WordResult.mk w .not_attempted (some (strOf "Assessment stopped early"))
  let correctCount := paddedResults.countP fun r => decide (r.result = .correct)
  { currentCheck with
    results := paddedResults
    overallComment := some comment
    status := .completed
    score := correctCount
    percentage := (correctCount : ℚ) / (setWords.length : ℚ) * 100 }

/-- A data row of the first worksheet, keyed by the resolved item column and
grapheme-type column; `none` models a missing (undefined) cell. -/
structure ExcelRow where
  item : Option Str
  grapheme : Option Str

/-- fileService.ts lines 47-68: convert one row to a word, or skip it. A
missing or blank item skips the row, as does a trimmed item longer than 50
characters; a missing grapheme cell under an existing grapheme column
stringifies as "undefined", and a missing grapheme column substitutes the
fixed marker for every row. -/
def parseRow (hasGraphemeColumn : Bool) (row : ExcelRow) : Option PhonicsWord :=
  match row.item with
  | none => none
  | some it =>
    let itemStr := jsTrim it
    if itemStr = [] then none
    else if itemStr.length < 1 ∨ 50 < itemStr.length then none
    else
      let graphemeType := if hasGraphemeColumn then
          (match row.grapheme with
           | some g => g
           | none => strOf "undefined")
        else strOf "N/A (from Excel)"
      some ⟨itemStr, jsTrim graphemeType⟩

/-- fileService.ts lines 44-68: the valid filtered rows, in sheet order. -/
def wordsOfRows (hasGraphemeColumn : Bool) (rows : List ExcelRow) : List PhonicsWord :=
  rows.filterMap (parseRow hasGraphemeColumn)

/-- Errors of the word-count validation (fileService.ts lines 70-77); the
source formats them into messages carrying the same data. -/
inductive IngestError where
  | noValidWords
  | outOfBounds (count : ℕ) (sample : List Str)
deriving DecidableEq

/-- fileService.ts lines 70-77: reject when no valid words were found or when
the count is outside 20-40 inclusive; the out-of-bounds error reports the
count found and the first five parsed words. -/
def checkWordCount (words : List PhonicsWord) : Except IngestError (List PhonicsWord) :=
  if words.length = 0 then .error .noValidWords
  else if words.length < 20 ∨ 40 < words.length then
    .error (.outOfBounds words.length ((words.take 5).map fun w => w.item))
  else .ok words

/-- fileService.ts lines 44-77: row filtering followed by count validation. -/
def ingestRows (hasGraphemeColumn : Bool) (rows : List ExcelRow) :
    Except IngestError (List PhonicsWord) :=
  checkWordCount (wordsOfRows hasGraphemeColumn rows)

/-- Decimal digit characters of a natural number, as the JavaScript template
literal interpolation of a number renders it. -/
def natToChars (n : ℕ) : Str :=
  if n = 0 then ['0'] else (Nat.digits 10 n).reverse.map Nat.digitChar

/-- Value of an all-digit string, as `parseInt` computes it. -/
def natOfChars (ds : Str) : ℕ :=
  ds.foldl (fun a c => 10 * a + (c.toNat - 48)) 0

/-- fileService.ts line 385: the numeric row index of a cell reference — strip
non-digit characters, then parse; `none` models the NaN result on a reference
without digits. -/
def rowNumOfRef (ref : Str) : Option ℕ :=
  let ds := ref.filter Char.isDigit
  if ds = [] then none else some (natOfChars ds)

/-- A child node of a worksheet cell element. -/
inductive XmlNode where
  | elem (tag : Str) (kids : List XmlNode)
  | text (s : Str)

/-- A worksheet cell element: its `r` reference attribute, its optional `t`
type attribute, and its child content. -/
structure XCell where
  r : Str
  t : Option Str
  kids : List XmlNode

/-- A worksheet row element, carrying the numeric value of its `r` attribute. -/
structure XRow where
  r : ℕ
  cells : List XCell

/-- A worksheet document: namespace presence, sheetData presence, and the row
elements in document order. -/
structure XDoc where
  hasNs : Bool
  hasSheetData : Bool
  rows : List XRow

/-- Replace the first element satisfying `p`. -/
def modifyFirst {α : Type _} (p : α → Bool) (f : α → α) : List α → List α
  | [] => []
  | x :: xs => if p x then f x :: xs else x :: modifyFirst p f xs

/-- fileService.ts lines 355-381 (`clearCellContents` then the body of
`setInlineStringValue`): clear the cell's children and its `t` attribute;
when the value is nonempty and the document has a namespace, mark the cell as
an inline string and attach an `is` element holding a `t` element with the
text. -/
def setCellValue (hasNs : Bool) (v : Str) (c : XCell) : XCell :=
  if v = [] then { c with t := none, kids := [] }
  else if hasNs then
    { c with t := some (strOf "inlineStr"),
             kids := [.elem (strOf "is") [.elem (strOf "t") [.text v]]] }
  else { c with t := none, kids := [] }

/-- fileService.ts lines 350-353 and 399-404: find the first cell with the
reference, or append a fresh one, and set its value. -/
def upsertInRow (hasNs : Bool) (v : Str) (ref : Str) (row : XRow) : XRow :=
  if row.cells.any (fun c => decide (c.r = ref)) then
    { row with
      cells := modifyFirst (fun c => decide (c.r = ref)) (setCellValue hasNs v) row.cells }
  else
    { row with cells := row.cells ++ [setCellValue hasNs v ⟨ref, none, []⟩] }

/-- fileService.ts lines 345-348, 366-381 and 383-406, as one write of a value
to a coordinate: when the reference has digits and the document has a
namespace, locate the first row with the parsed number (or, when sheetData is
present, append a fresh one) and upsert the cell there; otherwise nothing
happens. -/
def writeCell (doc : XDoc) (ref : Str) (v : Str) : XDoc :=
  match rowNumOfRef ref with
  | none => doc
  | some n =>
    if doc.hasNs then
      if doc.rows.any (fun row => decide (row.r = n)) then
        { doc with
          rows := modifyFirst (fun row => decide (row.r = n)) (upsertInRow doc.hasNs v ref) doc.rows }
      else if doc.hasSheetData then
        { doc with rows := doc.rows ++ [upsertInRow doc.hasNs v ref ⟨n, []⟩] }
      else doc
    else doc

/-- Locate the cell at a reference as `findRowElement` and `findCellElement`
do (fileService.ts lines 345-353). -/
def lookupCell (doc : XDoc) (ref : Str) : Option XCell :=
  match rowNumOfRef ref with
  | none => none
  | some n =>
    (doc.rows.find? fun row => decide (row.r = n)).bind
      fun row => row.cells.find? fun c => decide (c.r = ref)

/-- The observable content of a cell: its type attribute and its children. -/
def cellContent (c : XCell) : Option Str × List XmlNode := (c.t, c.kids)

/-- The content an inline-string write of `v` leaves behind: nothing for the
empty value, the inline-string marker and text otherwise. -/
def inlineContent (v : Str) : Option Str × List XmlNode :=
  if v = [] then (none, [])
  else (some (strOf "inlineStr"), [.elem (strOf "is") [.elem (strOf "t") [.text v]]])

/-- fileService.ts line 341: a column letter followed by the row number. -/
def cellRef (column : Char) (row : ℕ) : Str := column :: natToChars row

/-- fileService.ts lines 453-457. -/
def mapResultOutcome : ResultKind → Str
  | .correct => strOf "Got it"
  | .incorrect => strOf "Not yet"
  | .not_attempted => []

/-- fileService.ts lines 459-484 as the sequence of cell writes performed by
`updateMarkingSheet`: the set name into F2, then for each of the first
min(outcomes, 40) word slots the mapped result into column E and the note or
blank into column F of row 4+i, then blanks into both columns of every
remaining slot up to 40. -/
def markingWrites (res : CheckResult) : List (Str × Str) :=
  (strOf "F2", res.phonicsSetName) ::
    (((List.range (min res.results.length 40)).map fun i =>
      [(cellRef 'E' (4 + i), mapResultOutcome (res.results.getD i default).result),
       (cellRef 'F' (4 + i), ((res.results.getD i default).note).getD [])]).flatten
    ++ ((List.range' res.results.length (40 - res.results.length)).map fun i =>
      [(cellRef 'E' (4 + i), ([] : Str)), (cellRef 'F' (4 + i), ([] : Str))]).flatten)

/-- Apply a sequence of cell writes in order. -/
def applyWrites (doc : XDoc) (ws : List (Str × Str)) : XDoc :=
  ws.foldl (fun d p => writeCell d p.1 p.2) doc

/-- fileService.ts lines 459-484: the marking-sheet patch. -/
def updateMarkingSheet (doc : XDoc) (res : CheckResult) : XDoc :=
  applyWrites doc (markingWrites res)

/-- A marking-sheet document with a namespace, sheetData, and no rows. -/
def sampleDoc : XDoc := ⟨true, true, []⟩

/-- Abstract outcome of one export attempt (fileService.ts lines 531-613):
either a file download was triggered, or the alert was shown and nothing was
downloaded. -/
inductive ExportOutcome where
  | downloaded
  | alerted (msg : Str)
deriving DecidableEq

/-- The failure points of the export pipeline as an abstract environment; each
flag tells whether the corresponding external step succeeds: template fetch
(fileService.ts lines 408-432), presence of the cover and marking worksheet
entries (lines 537-541), their XML parses (lines 544-553), presence and parse
of xl/workbook.xml inside the recalculation-marking step (lines 486-529), and
archive generation (line 594). -/
structure ExportEnv where
  templateOk : Bool
  coverPresent : Bool
  markingPresent : Bool
  coverParses : Bool
  markingParses : Bool
  workbookPresent : Bool
  workbookParses : Bool
  generateOk : Bool
deriving DecidableEq

/-- Errors that abort the export body. -/
inductive ExportErr where
  | templateLoadFailed
  | missingWorksheets
  | coverParseError
  | markingParseError
  | generateFailed
deriving DecidableEq

/-- fileService.ts lines 486-529: marking the workbook for recalculation
parses xl/workbook.xml and throws on a parse error (line 497), but the
function's own catch (lines 526-528) swallows the error after logging it, so
its result never reaches the caller. A missing workbook entry is an early
successful return. -/
def markWorkbookForRecalculation (env : ExportEnv) : Except Unit Unit :=
  if !env.workbookPresent then .ok ()
  else if !env.workbookParses then .error ()
  else .ok ()

/-- The try-block of `exportResultsToExcel` (fileService.ts lines 532-607):
each failing step throws, except the recalculation-marking step whose failures
are swallowed inside it (its result is discarded), and the summary-sheet
cache clearing, whose failures are likewise caught and only logged. -/
def exportBody (env : ExportEnv) : Except ExportErr Unit := do
  if !env.templateOk then throw .templateLoadFailed
  if !(env.coverPresent && env.markingPresent) then throw .missingWorksheets
  if !env.coverParses then throw .coverParseError
  if !env.markingParses then throw .markingParseError
  let _ := markWorkbookForRecalculation env
  if !env.generateOk then throw .generateFailed
  pure ()

/-- fileService.ts line 611: the generic user-facing message. -/
def genericExportAlert : Str := strOf "Unable to export results. Please try again."

/-- fileService.ts lines 531-613: the whole export — the try block with every
raised error caught (lines 609-612) and surfaced as the one generic alert;
only a fully successful body triggers the download. -/
def exportResultsToExcel (env : ExportEnv) : ExportOutcome :=
  match exportBody env with
  | .ok _ => .downloaded
  | .error _ => .alerted genericExportAlert

/-- An assessment record whose metadata fields are all blank. -/
def sampleCheck : CheckResult :=
  ⟨[], [], [], [], [], [], [], [], [], [], [], .in_progress, [], none, none, 0, 0⟩

/-- A two-word phonics set. -/
def sampleWords2 : List PhonicsWord :=
  [⟨strOf "cat", strOf "CVC"⟩, ⟨strOf "dog", strOf "CVC"⟩]

/-- A one-outcome recorded prefix. -/
def sampleResults1 : List WordResult :=
  [⟨⟨strOf "cat", strOf "CVC"⟩, .correct, none⟩]

/-- A spreadsheet of `n` valid single-word rows. -/
def sampleRows (n : ℕ) : List ExcelRow :=
  (List.range n).map fun _ => ⟨some (strOf "cat"), none⟩

theorem jsRound_eq_round (q : ℚ) : jsRound q = ⌊q + 1/2⌋ := by
  have hden : ((q.den : ℚ)) ≠ 0 := by exact_mod_cast q.den_nz
  have hqd : q * (q.den : ℚ) = (q.num : ℚ) := by
    nth_rewrite 1 [← Rat.num_div_den q]
    exact div_mul_cancel₀ _ hden
  have h : q + 1/2 = ((2 * q.num + (q.den : ℤ) : ℤ) : ℚ) / (((2 * q.den : ℕ) : ℕ) : ℚ) := by
    rw [eq_div_iff (by positivity)]
    push_cast
    rw [add_mul, ← mul_assoc, mul_comm q 2, mul_assoc, hqd]
    ring
  rw [h, Rat.floor_intCast_div_natCast]
  unfold jsRound
  push_cast
  rfl

theorem findSome?_append_of_none {α β : Type _} {l₁ l₂ : List α} {f : α → Option β}
    (h : ∀ a ∈ l₁, f a = none) : (l₁ ++ l₂).findSome? f = l₂.findSome? f := by
  induction l₁ with
  | nil => rfl
  | cons a t ih =>
    have ha : f a = none := h a (by simp)
    simp [List.findSome?_cons, ha]
    exact ih fun b hb => h b (by simp [hb])

theorem option_lower_cases {o o' : Option Str} (h : o.map lower = o'.map lower) :
    (o = none ∧ o' = none) ∨ ∃ a a', o = some a ∧ o' = some a' ∧ lower a = lower a' := by
  cases o <;> cases o' <;> simp_all

theorem find?_lower_congr (q : Str → Bool) :
    ∀ {hs hs' : List Str}, hs.map lower = hs'.map lower →
      (hs.find? fun h => q (lower h)).map lower
        = (hs'.find? fun h => q (lower h)).map lower := by
  intro hs
  induction hs with
  | nil =>
    intro hs' h
    cases hs' with
    | nil => rfl
    | cons b t => simp at h
  | cons a t ih =>
    intro hs' h
    cases hs' with
    | nil => simp at h
    | cons b t' =>
      simp only [List.map_cons, List.cons.injEq] at h
      obtain ⟨hab, ht⟩ := h
      simp only [List.find?_cons, hab]
      cases hq : q (lower b) with
      | true => simp [Option.map_some, hab]
      | false => exact ih ht

theorem findSome?_map_lower_congr {ns : List Str} {g g' : Str → Option Str}
    (h : ∀ n ∈ ns, (g n).map lower = (g' n).map lower) :
    (ns.findSome? g).map lower = (ns.findSome? g').map lower := by
  induction ns with
  | nil => rfl
  | cons n t ih =>
    have hn := h n (by simp)
    simp only [List.findSome?_cons]
    rcases option_lower_cases hn with ⟨h1, h2⟩ | ⟨a, a', h1, h2, h3⟩
    · rw [h1, h2]; exact ih fun m hm => h m (by simp [hm])
    · rw [h1, h2]; simpa using h3

theorem find?_pred_congr {α : Type _} {p q : α → Bool} (l : List α)
    (h : ∀ a, p a = q a) : l.find? p = l.find? q := by
  have : p = q := funext h
  rw [this]

theorem exactPhase_ns_congr (hs : List Str) :
    ∀ (ns ns' : List Str), ns.map lower = ns'.map lower →
      exactPhase hs ns = exactPhase hs ns' := by
  intro ns
  induction ns with
  | nil =>
    intro ns' h
    cases ns' with
    | nil => rfl
    | cons b t => simp at h
  | cons n t ih =>
    intro ns' h
    cases ns' with
    | nil => simp at h
    | cons n' t' =>
      simp only [List.map_cons, List.cons.injEq] at h
      obtain ⟨hn, ht⟩ := h
      simp only [exactPhase, List.findSome?_cons]
      rw [show (hs.find? fun h => decide (lower h = lower n))
            = hs.find? fun h => decide (lower h = lower n') from
          find?_pred_congr hs fun a => by rw [hn]]
      have := ih t' ht
      simp only [exactPhase] at this
      rw [this]

theorem containsPhase_ns_congr (hs : List Str) :
    ∀ (ns ns' : List Str), ns.map lower = ns'.map lower →
      containsPhase hs ns = containsPhase hs ns' := by
  intro ns
  induction ns with
  | nil =>
    intro ns' h
    cases ns' with
    | nil => rfl
    | cons b t => simp at h
  | cons n t ih =>
    intro ns' h
    cases ns' with
    | nil => simp at h
    | cons n' t' =>
      simp only [List.map_cons, List.cons.injEq] at h
      obtain ⟨hn, ht⟩ := h
      simp only [containsPhase, List.findSome?_cons]
      rw [show (hs.find? fun h => hasSub (lower n) (lower h))
            = hs.find? fun h => hasSub (lower n') (lower h) from
          find?_pred_congr hs fun a => by rw [hn]]
      have := ih t' ht
      simp only [containsPhase] at this
      rw [this]

theorem any_ns_congr {g : Str → Str → Bool} :
    ∀ (ns ns' : List Str), ns.map lower = ns'.map lower → ∀ key : Str,
      (ns.any fun n => g (lower n) key) = (ns'.any fun n => g (lower n) key) := by
  intro ns
  induction ns with
  | nil =>
    intro ns' h key
    cases ns' with
    | nil => rfl
    | cons b t => simp at h
  | cons n t ih =>
    intro ns' h key
    cases ns' with
    | nil => simp at h
    | cons n' t' =>
      simp only [List.map_cons, List.cons.injEq] at h
      obtain ⟨hn, ht⟩ := h
      simp only [List.any_cons, hn, ih t' ht key]

theorem fuzzyPhase_ns_congr (hs : List Str) (ns ns' : List Str)
    (h : ns.map lower = ns'.map lower) : fuzzyPhase hs ns = fuzzyPhase hs ns' := by
  unfold fuzzyPhase
  apply find?_pred_congr
  intro a
  exact any_ns_congr (g := fun ln key => hasSub key ln || hasSub ln key) ns ns' h (lower a)

theorem exactPhase_hs_congr {hs hs' : List Str} (ns : List Str)
    (h : hs.map lower = hs'.map lower) :
    (exactPhase hs ns).map lower = (exactPhase hs' ns).map lower := by
  unfold exactPhase
  exact findSome?_map_lower_congr fun n _ =>
    find?_lower_congr (fun key => decide (key = lower n)) h

theorem containsPhase_hs_congr {hs hs' : List Str} (ns : List Str)
    (h : hs.map lower = hs'.map lower) :
    (containsPhase hs ns).map lower = (containsPhase hs' ns).map lower := by
  unfold containsPhase
  exact findSome?_map_lower_congr fun n _ =>
    find?_lower_congr (fun key => hasSub (lower n) key) h

theorem fuzzyPhase_hs_congr {hs hs' : List Str} (ns : List Str)
    (h : hs.map lower = hs'.map lower) :
    (fuzzyPhase hs ns).map lower = (fuzzyPhase hs' ns).map lower := by
  unfold fuzzyPhase
  exact find?_lower_congr
    (fun key => ns.any fun name => hasSub key (lower name) || hasSub (lower name) key) h

theorem findBestColumnMatch_hs_congr {hs hs' : List Str} (ns : List Str)
    (h : hs.map lower = hs'.map lower) :
    (findBestColumnMatch hs ns).map lower = (findBestColumnMatch hs' ns).map lower := by
  unfold findBestColumnMatch
  rcases option_lower_cases (exactPhase_hs_congr ns h) with ⟨e1, e2⟩ | ⟨a, a', e1, e2, e3⟩
  · rw [e1, e2]
    rcases option_lower_cases (containsPhase_hs_congr ns h) with ⟨c1, c2⟩ | ⟨b, b', c1, c2, c3⟩
    · rw [c1, c2]
      exact fuzzyPhase_hs_congr ns h
    · rw [c1, c2]; simpa using c3
  · rw [e1, e2]; simpa using e3

theorem findBestColumnMatch_ns_congr (hs : List Str) (ns ns' : List Str)
    (h : ns.map lower = ns'.map lower) :
    findBestColumnMatch hs ns = findBestColumnMatch hs ns' := by
  unfold findBestColumnMatch
  rw [exactPhase_ns_congr hs ns ns' h, containsPhase_ns_congr hs ns ns' h,
    fuzzyPhase_ns_congr hs ns ns' h]

/-- C2 (counterexample): with headers `["itemx", "word"]` and candidate names
`["item", "word"]`, the first candidate name `"item"` matches the header
`"itemx"` by the substring rule, yet `findBestColumnMatch` returns `"word"`
(a header that `"item"` matches by no rule), because the later candidate
`"word"` has an exact match and the exact pass runs over all candidates before
any substring match is considered. So the first candidate name that matches
any header by any rule does not, in general, win. -/
theorem C2_first_match_counterexample :
    matchesAnyRule (strOf "item") (strOf "itemx") = true ∧
    findBestColumnMatch [strOf "itemx", strOf "word"] [strOf "item", strOf "word"]
      = some (strOf "word") ∧
    matchesAnyRule (strOf "item") (strOf "word") = false := by
  decide

/-- C2 (amended): `findBestColumnMatch` applies the three rules in tiers:
first the exact-match pass, then the substring pass, each iterating candidate
names in caller-supplied priority order, then a fuzzy pass over headers.
Within the exact pass, the first candidate name with an exact match wins over
any later candidate matching a different header; when no candidate has an
exact match, within the substring pass the first candidate with a substring
match wins. A later candidate matching under an earlier tier beats an earlier
candidate matching only under a later tier. -/
theorem C2_tiered_candidate_priority :
    (∀ (hs ns₁ ns₂ : List Str) (n : Str),
      (∀ m ∈ ns₁, hs.find? (fun h => decide (lower h = lower m)) = none) →
      (hs.find? fun h => decide (lower h = lower n)).isSome = true →
      findBestColumnMatch hs (ns₁ ++ n :: ns₂)
        = hs.find? fun h => decide (lower h = lower n)) ∧
    (∀ (hs ns₁ ns₂ : List Str) (n : Str),
      exactPhase hs (ns₁ ++ n :: ns₂) = none →
      (∀ m ∈ ns₁, hs.find? (fun h => hasSub (lower m) (lower h)) = none) →
      (hs.find? fun h => hasSub (lower n) (lower h)).isSome = true →
      findBestColumnMatch hs (ns₁ ++ n :: ns₂)
        = hs.find? fun h => hasSub (lower n) (lower h)) := by
  constructor
  · intro hs ns₁ ns₂ n hnone hsome
    obtain ⟨x, hx⟩ := Option.isSome_iff_exists.mp hsome
    have he : exactPhase hs (ns₁ ++ n :: ns₂)
        = hs.find? fun h => decide (lower h = lower n) := by
      unfold exactPhase
      rw [findSome?_append_of_none hnone, List.findSome?_cons, hx]
    unfold findBestColumnMatch
    rw [he, hx]
  · intro hs ns₁ ns₂ n hexact hnone hsome
    obtain ⟨x, hx⟩ := Option.isSome_iff_exists.mp hsome
    have hc : containsPhase hs (ns₁ ++ n :: ns₂)
        = hs.find? fun h => hasSub (lower n) (lower h) := by
      unfold containsPhase
      rw [findSome?_append_of_none hnone, List.findSome?_cons, hx]
    unfold findBestColumnMatch
    rw [hexact, hc, hx]

/-- Witness for C2's amended theorem at a concrete input: with the single
header `"Word"`, the earlier candidate `"item"` has no exact match and the
later candidate `"word"` does, so the exact match is returned. -/
theorem C2_tiered_candidate_priority_witness :
    findBestColumnMatch [strOf "Word"] [strOf "item", strOf "word"]
      = [strOf "Word"].find? fun h => decide (lower h = lower (strOf "word")) :=
  C2_tiered_candidate_priority.1 [strOf "Word"] [strOf "item"] [] (strOf "word")
    (by decide) (by decide)

/-- C3: `findBestColumnMatch` is case-insensitive — re-casing the candidate
names leaves the returned header literally unchanged, and jointly re-casing
headers and candidates returns the corresponding (case-equivalent) header —
and whenever some header matches some candidate exactly (up to case), the
returned header is such an exact match, so an exact match is preferred over
any header matching only as a substring, wherever that header appears. -/
theorem C3_case_insensitive_exact_wins :
    (∀ (hs ns ns' : List Str), ns.map lower = ns'.map lower →
      findBestColumnMatch hs ns = findBestColumnMatch hs ns') ∧
    (∀ (hs hs' ns ns' : List Str), hs.map lower = hs'.map lower →
      ns.map lower = ns'.map lower →
      (findBestColumnMatch hs ns).map lower
        = (findBestColumnMatch hs' ns').map lower) ∧
    (∀ (hs ns : List Str), (∃ n ∈ ns, ∃ h ∈ hs, lower h = lower n) →
      ∃ h, findBestColumnMatch hs ns = some h ∧ ∃ n ∈ ns, lower h = lower n) := by
  refine ⟨findBestColumnMatch_ns_congr, ?_, ?_⟩
  · intro hs hs' ns ns' hh hn
    calc (findBestColumnMatch hs ns).map lower
        = (findBestColumnMatch hs ns').map lower := by
          rw [findBestColumnMatch_ns_congr hs ns ns' hn]
      _ = (findBestColumnMatch hs' ns').map lower :=
          findBestColumnMatch_hs_congr ns' hh
  · intro hs ns hex
    obtain ⟨n, hn, h, hh, heq⟩ := hex
    have hfind : (hs.find? fun x => decide (lower x = lower n)).isSome = true :=
      List.find?_isSome.mpr ⟨h, hh, by simp [heq]⟩
    rcases he : exactPhase hs ns with _ | x
    · exfalso
      have : ∀ m ∈ ns, (hs.find? fun x => decide (lower x = lower m)) = none := by
        intro m hm
        exact (List.findSome?_eq_none_iff.mp he) m hm
      rw [this n hn] at hfind
      simp at hfind
    · refine ⟨x, ?_, ?_⟩
      · unfold findBestColumnMatch
        rw [he]
      · obtain ⟨m, hm, hfm⟩ := List.exists_of_findSome?_eq_some he
        exact ⟨m, hm, by simpa using List.find?_some hfm⟩

/-- Witness for C3 at concrete inputs: re-casing candidates preserves the
result, and an exact (case-insensitive) match is returned when one exists. -/
theorem C3_case_insensitive_exact_wins_witness :
    findBestColumnMatch [strOf "My Item", strOf "Type"] [strOf "ITEM", strOf "TYPE"]
      = findBestColumnMatch [strOf "My Item", strOf "Type"] [strOf "item", strOf "type"]
    ∧ ∃ h, findBestColumnMatch [strOf "My Item", strOf "Type"]
        [strOf "item", strOf "type"] = some h
        ∧ ∃ n ∈ [strOf "item", strOf "type"], lower h = lower n :=
  ⟨C3_case_insensitive_exact_wins.1 [strOf "My Item", strOf "Type"]
      [strOf "ITEM", strOf "TYPE"] [strOf "item", strOf "type"] (by decide),
   C3_case_insensitive_exact_wins.2.2 [strOf "My Item", strOf "Type"]
      [strOf "item", strOf "type"] (by decide)⟩

/-- C4: the positional trimming of accumulated PDF candidates keeps exactly
positions 5..44 (1-indexed) when more than 44 candidates were found — so 46
candidates yield those 40 words with the first 4 and last 2 discarded — keeps
the last 40 when the count is between 40 and 44 inclusive, keeps everything
when fewer than 40 were found, and the kept list is at most 40 words long. -/
theorem C4_positional_trimming (l : List Str) :
    (44 < l.length → selectFinalWords l = (l.drop 4).take 40) ∧
    (40 ≤ l.length → l.length ≤ 44 → selectFinalWords l = l.drop (l.length - 40)) ∧
    (l.length < 40 → selectFinalWords l = l) ∧
    (selectFinalWords l).length ≤ 40 ∧
    (l.length = 46 → selectFinalWords l = (l.take 44).drop 4) := by
  refine ⟨?_, ?_, ?_, ?_, ?_⟩
  · intro h
    unfold selectFinalWords selectBranch
    rw [if_pos h, List.take_take]
    norm_num
  · intro h1 h2
    unfold selectFinalWords selectBranch
    rw [if_neg (by omega), if_pos h1]
    apply List.take_of_length_le
    rw [List.length_drop]
    omega
  · intro h
    unfold selectFinalWords selectBranch
    rw [if_neg (by omega), if_neg (by omega)]
    exact List.take_of_length_le (by omega)
  · unfold selectFinalWords
    rw [List.length_take]
    omega
  · intro h
    unfold selectFinalWords selectBranch
    rw [if_pos (by omega), List.take_take, List.drop_take]
    norm_num

/-- Witness for C4 at a concrete list of 46 candidates: positions 5..44 are
kept. -/
theorem C4_positional_trimming_witness :
    selectFinalWords sampleCandidates46 = (sampleCandidates46.drop 4).take 40 :=
  (C4_positional_trimming sampleCandidates46).1 (by decide)

/-- C5: an unseen candidate token is suppressed (not appended to the
accumulated word list) exactly when it is one of the fixed two-letter common
words and fewer than 4 words have been accepted so far (so it would land among
the first 4 accepted words); and the synthetic one-page document of 4 leading
common words followed by 40 distinct valid words at one dominant font size
yields exactly those 40 words in order. -/
theorem C5_practice_word_suppression :
    (∀ (st : PdfScan) (w : Str), lower w ∉ st.seen →
      ((processWord st w).allWords = st.allWords ↔
        st.allWords.length < 4 ∧ lower w ∈ practiceWords)) ∧
    parsePhonicsPdfWords [samplePage] = .ok sample40 := by
  constructor
  · intro st w hw
    have hlen : ∀ s ∈ practiceWords, s.length ≤ 3 := by decide
    unfold processWord
    rw [if_neg hw]
    by_cases hp : isLikelyPracticeWord st w = true
    · rw [if_pos hp]
      simp only [isLikelyPracticeWord, Bool.and_eq_true, decide_eq_true_eq] at hp
      simp only [true_iff]
      exact ⟨hp.1.1, hp.2⟩
    · rw [if_neg hp]
      simp only [isLikelyPracticeWord, Bool.and_eq_true, decide_eq_true_eq] at hp
      constructor
      · intro habs
        exfalso
        have := congrArg List.length habs
        simp at this
      · rintro ⟨h4, hmem⟩
        exfalso
        apply hp
        refine ⟨⟨h4, ?_⟩, hmem⟩
        have h3 := hlen (lower w) hmem
        simpa [lower] using h3
  · decide

/-- Witness for C5 at a concrete input: the first word "it" of the empty scan
state is suppressed. -/
theorem C5_practice_word_suppression_witness :
    (processWord ⟨[], []⟩ (strOf "it")).allWords = (⟨[], []⟩ : PdfScan).allWords :=
  (C5_practice_word_suppression.1 ⟨[], []⟩ (strOf "it") (by decide)).mpr (by decide)

/-- C1: completing an assessment over a term set of `n` words with a recorded
prefix of outcomes yields a record with status completed, exactly `n`
outcomes (missing entries back-filled as not_attempted), score equal to the
number of correct outcomes, and percentage equal to score / n * 100. -/
theorem C1_assessment_complete (c : CheckResult) (ws : List PhonicsWord)
    (rs : List WordResult) (comment : Str)
    (hlen : rs.length ≤ ws.length) (_hpos : 0 < ws.length) :
    (handleAssessmentComplete c ws rs comment).status = .completed ∧
    (handleAssessmentComplete c ws rs comment).results.length = ws.length ∧
    (∀ (i : ℕ) (hi : i < (handleAssessmentComplete c ws rs comment).results.length),
      rs.length ≤ i →
      ((handleAssessmentComplete c ws rs comment).results.get ⟨i, hi⟩).result
        = .not_attempted) ∧
    (handleAssessmentComplete c ws rs comment).score
      = (handleAssessmentComplete c ws rs comment).results.countP
          (fun r => decide (r.result = .correct)) ∧
    (handleAssessmentComplete c ws rs comment).percentage
      = ((handleAssessmentComplete c ws rs comment).score : ℚ)
          / (ws.length : ℚ) * 100 := by
  refine ⟨rfl, ?_, ?_, rfl, rfl⟩
  · simp [handleAssessmentComplete]
    omega
  · intro i hi hge
    simp only [handleAssessmentComplete, List.get_eq_getElem] at hi ⊢
    rw [List.getElem_append_right (by simpa using hge)]
    simp

/-- Witness for C1 at a concrete input: a two-word set with a one-outcome
recorded prefix. -/
theorem C1_assessment_complete_witness :
    (handleAssessmentComplete sampleCheck sampleWords2 sampleResults1 []).status
      = .completed ∧
    (handleAssessmentComplete sampleCheck sampleWords2 sampleResults1
      []).results.length = sampleWords2.length ∧
    (∀ (i : ℕ) (hi : i < (handleAssessmentComplete sampleCheck sampleWords2
        sampleResults1 []).results.length),
      sampleResults1.length ≤ i →
      ((handleAssessmentComplete sampleCheck sampleWords2 sampleResults1
        []).results.get ⟨i, hi⟩).result = .not_attempted) ∧
    (handleAssessmentComplete sampleCheck sampleWords2 sampleResults1 []).score
      = (handleAssessmentComplete sampleCheck sampleWords2 sampleResults1
          []).results.countP (fun r => decide (r.result = .correct)) ∧
    (handleAssessmentComplete sampleCheck sampleWords2 sampleResults1
        []).percentage
      = ((handleAssessmentComplete sampleCheck sampleWords2 sampleResults1
          []).score : ℚ) / (sampleWords2.length : ℚ) * 100 :=
  C1_assessment_complete sampleCheck sampleWords2 sampleResults1 []
    (by decide) (by decide)

/-- C6: spreadsheet ingestion succeeds exactly when the valid filtered row
count lies in 20..40 inclusive (so 20 valid rows are accepted, 19 and 41 are
rejected); when the count is nonzero and out of bounds the error reports the
actual count and the first five parsed words, and a zero count yields the
no-valid-words error. -/
theorem C6_word_count_bounds (hasG : Bool) (rows : List ExcelRow) :
    ((∃ v, ingestRows hasG rows = .ok v) ↔
      20 ≤ (wordsOfRows hasG rows).length ∧ (wordsOfRows hasG rows).length ≤ 40) ∧
    ((wordsOfRows hasG rows).length ≠ 0 →
      ((wordsOfRows hasG rows).length < 20 ∨ 40 < (wordsOfRows hasG rows).length) →
      ingestRows hasG rows = .error (.outOfBounds (wordsOfRows hasG rows).length
        (((wordsOfRows hasG rows).take 5).map fun w => w.item))) ∧
    ((wordsOfRows hasG rows).length = 0 →
      ingestRows hasG rows = .error .noValidWords) := by
  refine ⟨?_, ?_, ?_⟩
  · unfold ingestRows checkWordCount
    split_ifs with h0 hob
    · simp only [reduceCtorEq, exists_false, false_iff]
      omega
    · simp only [reduceCtorEq, exists_false, false_iff]
      omega
    · simp only [Except.ok.injEq, exists_eq', true_iff]
      omega
  · intro h0 hob
    unfold ingestRows checkWordCount
    rw [if_neg h0, if_pos hob]
  · intro h0
    unfold ingestRows checkWordCount
    rw [if_pos h0]

/-- Witness for C6 at a concrete input: 41 valid rows are rejected with the
out-of-bounds error carrying the count and a sample. -/
theorem C6_word_count_bounds_witness :
    ingestRows true (sampleRows 41)
      = .error (.outOfBounds (wordsOfRows true (sampleRows 41)).length
          (((wordsOfRows true (sampleRows 41)).take 5).map fun w => w.item)) :=
  (C6_word_count_bounds true (sampleRows 41)).2.1 (by decide) (by decide)

theorem setCellValue_r (ns : Bool) (v : Str) (c : XCell) :
    (setCellValue ns v c).r = c.r := by
  unfold setCellValue
  split_ifs <;> rfl

theorem setCellValue_idem (ns : Bool) (v : Str) (c : XCell) :
    setCellValue ns v (setCellValue ns v c) = setCellValue ns v c := by
  unfold setCellValue
  split_ifs <;> rfl

theorem setCellValue_content (v : Str) (c : XCell) :
    cellContent (setCellValue true v c) = inlineContent v := by
  unfold setCellValue inlineContent cellContent
  split_ifs <;> first | rfl | simp_all

theorem upsertInRow_r (ns : Bool) (v ref : Str) (row : XRow) :
    (upsertInRow ns v ref row).r = row.r := by
  unfold upsertInRow
  split_ifs <;> rfl

theorem find?_modifyFirst_self {α : Type _} (p : α → Bool) (f : α → α) (l : List α)
    (hp : ∀ a, p (f a) = p a) :
    (modifyFirst p f l).find? p = (l.find? p).map f := by
  induction l with
  | nil => rfl
  | cons x xs ih =>
    by_cases hx : p x = true
    · simp [modifyFirst, hx, List.find?_cons, hp x]
    · simp only [Bool.not_eq_true] at hx
      simp [modifyFirst, hx, List.find?_cons, ih]

theorem find?_modifyFirst_disjoint {α : Type _} (p q : α → Bool) (f : α → α) (l : List α)
    (hq : ∀ a, q (f a) = q a) (hdisj : ∀ a, p a = true → q a = false) :
    (modifyFirst p f l).find? q = l.find? q := by
  induction l with
  | nil => rfl
  | cons x xs ih =>
    by_cases hx : p x = true
    · have hqx : q x = false := hdisj x hx
      simp [modifyFirst, hx, List.find?_cons, hq x, hqx]
    · simp only [Bool.not_eq_true] at hx
      by_cases hqx : q x = true
      · simp [modifyFirst, hx, List.find?_cons, hqx]
      · simp only [Bool.not_eq_true] at hqx
        simp [modifyFirst, hx, List.find?_cons, hqx, ih]

theorem any_modifyFirst {α : Type _} (p : α → Bool) (f : α → α) (l : List α)
    (hp : ∀ a, p (f a) = p a) : (modifyFirst p f l).any p = l.any p := by
  induction l with
  | nil => rfl
  | cons x xs ih =>
    by_cases hx : p x = true
    · simp [modifyFirst, hx, hp x]
    · simp only [Bool.not_eq_true] at hx
      simp [modifyFirst, hx, ih]

theorem modifyFirst_idem {α : Type _} (p : α → Bool) (f : α → α) (l : List α)
    (hp : ∀ a, p (f a) = p a) (hf : ∀ a, f (f a) = f a) :
    modifyFirst p f (modifyFirst p f l) = modifyFirst p f l := by
  induction l with
  | nil => rfl
  | cons x xs ih =>
    by_cases hx : p x = true
    · simp [modifyFirst, hx, hp x, hf x]
    · simp only [Bool.not_eq_true] at hx
      simp [modifyFirst, hx, ih]

theorem modifyFirst_append_left {α : Type _} (p : α → Bool) (f : α → α)
    (l₁ l₂ : List α) (h : ∀ a ∈ l₁, p a = false) :
    modifyFirst p f (l₁ ++ l₂) = l₁ ++ modifyFirst p f l₂ := by
  induction l₁ with
  | nil => rfl
  | cons x xs ih =>
    have hx : p x = false := h x (by simp)
    simp only [List.cons_append, modifyFirst, hx]
    simp only [Bool.false_eq_true, if_false, List.cons.injEq, true_and]
    exact ih fun a ha => h a (by simp [ha])

theorem find?_append_single_ne {α : Type _} (p : α → Bool) (l : List α) (a : α)
    (ha : p a = false) : (l ++ [a]).find? p = l.find? p := by
  induction l with
  | nil => simp [List.find?_cons, ha]
  | cons x xs ih =>
    by_cases hx : p x = true
    · simp [List.find?_cons, hx]
    · simp only [Bool.not_eq_true] at hx
      simp [List.find?_cons, hx, ih]

theorem find?_append_single_found {α : Type _} (p : α → Bool) (l : List α) (a : α)
    (hl : l.find? p = none) (ha : p a = true) : (l ++ [a]).find? p = some a := by
  induction l with
  | nil => simp [List.find?_cons, ha]
  | cons x xs ih =>
    have hall := List.find?_eq_none.mp hl
    have hx : p x = false := by simpa using hall x (by simp)
    have hxs : xs.find? p = none :=
      List.find?_eq_none.mpr fun y hy => hall y (by simp [hy])
    simp only [List.cons_append, List.find?_cons, hx]
    simpa using ih hxs

theorem find?_upsertInRow_ne (ns : Bool) (v ref' ref : Str) (row : XRow)
    (hne : ref ≠ ref') :
    (upsertInRow ns v ref' row).cells.find? (fun c => decide (c.r = ref))
      = row.cells.find? (fun c => decide (c.r = ref)) := by
  unfold upsertInRow
  split_ifs with hany
  · apply find?_modifyFirst_disjoint
    · intro a
      rw [setCellValue_r]
    · intro a ha
      simp only [decide_eq_true_eq] at ha
      simp [ha, Ne.symm hne]
  · dsimp only
    apply find?_append_single_ne
    rw [setCellValue_r]
    simp [Ne.symm hne]

theorem find?_upsertInRow_self (v ref : Str) (row : XRow) :
    ((upsertInRow true v ref row).cells.find?
        (fun c => decide (c.r = ref))).map cellContent
      = some (inlineContent v) := by
  unfold upsertInRow
  split_ifs with hany
  · rw [find?_modifyFirst_self _ _ _ (fun a => by rw [setCellValue_r])]
    have hsome : (row.cells.find? (fun c => decide (c.r = ref))).isSome = true :=
      List.find?_isSome.mpr (List.any_eq_true.mp hany)
    obtain ⟨c, hc⟩ := Option.isSome_iff_exists.mp hsome
    rw [hc]
    simp [setCellValue_content]
  · dsimp only
    have hnone : row.cells.find? (fun c => decide (c.r = ref)) = none := by
      rw [List.find?_eq_none]
      intro x hx
      have hf := List.any_eq_false.mp (Bool.not_eq_true _ ▸ hany)
      exact fun hpx => (hf x hx) hpx
    rw [find?_append_single_found _ _ _ hnone (by rw [setCellValue_r]; simp)]
    simp [setCellValue_content]

theorem writeCell_hasNs (doc : XDoc) (ref v : Str) :
    (writeCell doc ref v).hasNs = doc.hasNs := by
  unfold writeCell
  rcases rowNumOfRef ref with _ | n
  · rfl
  · dsimp only
    split_ifs <;> rfl

theorem writeCell_hasSheetData (doc : XDoc) (ref v : Str) :
    (writeCell doc ref v).hasSheetData = doc.hasSheetData := by
  unfold writeCell
  rcases rowNumOfRef ref with _ | n
  · rfl
  · dsimp only
    split_ifs <;> rfl

theorem lookupCell_writeCell_ne (doc : XDoc) (ref' v ref : Str) (hne : ref ≠ ref') :
    lookupCell (writeCell doc ref' v) ref = lookupCell doc ref := by
  rcases hr' : rowNumOfRef ref' with _ | n'
  · unfold writeCell
    rw [hr']
  · unfold writeCell
    rw [hr']
    dsimp only
    by_cases hns : doc.hasNs = true
    case neg => rw [if_neg hns]
    rw [if_pos hns]
    by_cases hex : doc.rows.any (fun row => decide (row.r = n')) = true
    · rw [if_pos hex]
      unfold lookupCell
      rcases hr : rowNumOfRef ref with _ | n
    
      · rfl
      · dsimp only
        by_cases hnn : n = n'
        · subst hnn
          rw [find?_modifyFirst_self _ _ _ (fun a => by rw [upsertInRow_r])]
          rcases hf : doc.rows.find? (fun row => decide (row.r = n)) with _ | row
          · rw [hf]
            rfl
          · rw [hf]
            simp only [Option.map_some', Option.some_bind]
            exact find?_upsertInRow_ne _ _ _ _ _ hne
        · rw [find?_modifyFirst_disjoint _ _ _ _
            (fun a => by rw [upsertInRow_r])
            (fun a ha => by
              simp only [decide_eq_true_eq] at ha
              simp only [ha, decide_eq_false_iff_not]
              exact fun h => hnn h.symm)]
    · rw [if_neg hex]
      by_cases hsd : doc.hasSheetData = true
      · rw [if_pos hsd]
        unfold lookupCell
        rcases hr : rowNumOfRef ref with _ | n
        · rfl
        · dsimp only
          have hrownone : doc.rows.find? (fun row => decide (row.r = n')) = none := by
            rw [List.find?_eq_none]
            intro x hx hpx
            exact hex (List.any_eq_true.mpr ⟨x, hx, hpx⟩)
          by_cases hnn : n = n'
          · subst hnn
            rw [find?_append_single_found _ _ _ hrownone
              (by rw [upsertInRow_r]; simp)]
            rw [hrownone]
            simp only [Option.some_bind, Option.none_bind]
            rw [find?_upsertInRow_ne _ _ _ _ _ hne]
            rfl
          · rw [find?_append_single_ne _ _ _ (by
              rw [upsertInRow_r]
              simp only [decide_eq_false_iff_not]
              exact fun h => hnn h.symm)]
      · rw [if_neg hsd]

theorem lookupCell_writeCell_self (doc : XDoc) (ref v : Str)
    (hns : doc.hasNs = true) (hsd : doc.hasSheetData = true)
    (hrow : (rowNumOfRef ref).isSome = true) :
    (lookupCell (writeCell doc ref v) ref).map cellContent
      = some (inlineContent v) := by
  obtain ⟨n, hr⟩ := Option.isSome_iff_exists.mp hrow
  unfold writeCell lookupCell
  rw [hr]
  dsimp only
  rw [hns, if_pos rfl]
  by_cases hex : doc.rows.any (fun row => decide (row.r = n)) = true
  · rw [if_pos hex]
    rw [find?_modifyFirst_self _ _ _ (fun a => by rw [upsertInRow_r])]
    obtain ⟨row, hrow'⟩ := Option.isSome_iff_exists.mp
      (List.find?_isSome.mpr (List.any_eq_true.mp hex))
    rw [hrow']
    simp only [Option.map_some', Option.some_bind]
    exact find?_upsertInRow_self v ref row
  · rw [if_neg hex, if_pos hsd]
    have hrownone : doc.rows.find? (fun row => decide (row.r = n)) = none := by
      rw [List.find?_eq_none]
      intro x hx hpx
      exact hex (List.any_eq_true.mpr ⟨x, hx, hpx⟩)
    rw [find?_append_single_found _ _ _ hrownone (by rw [upsertInRow_r]; simp)]
    simp only [Option.some_bind]
    exact find?_upsertInRow_self v ref ⟨n, []⟩

theorem upsertInRow_idem (ns : Bool) (v ref : Str) (row : XRow) :
    upsertInRow ns v ref (upsertInRow ns v ref row) = upsertInRow ns v ref row := by
  by_cases hany : row.cells.any (fun c => decide (c.r = ref)) = true
  · have h1 : upsertInRow ns v ref row = { row with
        cells := modifyFirst (fun c => decide (c.r = ref)) (setCellValue ns v)
          row.cells } := by
      unfold upsertInRow
      rw [if_pos hany]
    rw [h1]
    have hany2 : (modifyFirst (fun c => decide (c.r = ref)) (setCellValue ns v)
        row.cells).any (fun c => decide (c.r = ref)) = true := by
      rw [any_modifyFirst _ _ _ (fun a => by rw [setCellValue_r])]
      exact hany
    unfold upsertInRow
    rw [if_pos hany2]
    simp only [XRow.mk.injEq, true_and]
    exact modifyFirst_idem _ _ _ (fun a => by rw [setCellValue_r])
      (setCellValue_idem ns v)
  · have h1 : upsertInRow ns v ref row = { row with
        cells := row.cells ++ [setCellValue ns v ⟨ref, none, []⟩] } := by
      unfold upsertInRow
      rw [if_neg hany]
    rw [h1]
    have hnew : (fun c => decide (c.r = ref)) (setCellValue ns v ⟨ref, none, []⟩)
        = true := by
      dsimp only
      rw [setCellValue_r]
      simp
    have hany2 : (row.cells ++ [setCellValue ns v ⟨ref, none, []⟩]).any
        (fun c => decide (c.r = ref)) = true := by
      rw [List.any_append]
      simp [hnew]
    unfold upsertInRow
    rw [if_pos hany2]
    simp only [XRow.mk.injEq, true_and]
    rw [modifyFirst_append_left _ _ _ _
      (fun a ha => by
        by_contra hpa
        simp only [Bool.not_eq_false] at hpa
        exact hany (List.any_eq_true.mpr ⟨a, ha, hpa⟩))]
    simp only [modifyFirst, hnew, if_true, List.append_cancel_left_eq]
    rw [setCellValue_idem]

theorem writeCell_idem (doc : XDoc) (ref v : Str) :
    writeCell (writeCell doc ref v) ref v = writeCell doc ref v := by
  rcases hr : rowNumOfRef ref with _ | n
  · unfold writeCell
    rw [hr]
  · by_cases hns : doc.hasNs = true
    case neg =>
      have h1 : writeCell doc ref v = doc := by
        unfold writeCell
        rw [hr]
        dsimp only
        rw [if_neg hns]
      rw [h1, h1]
    by_cases hex : doc.rows.any (fun row => decide (row.r = n)) = true
    · have h1 : writeCell doc ref v = { doc with
          rows := modifyFirst (fun row => decide (row.r = n))
            (upsertInRow doc.hasNs v ref) doc.rows } := by
        unfold writeCell
        rw [hr]
        dsimp only
        rw [if_pos hns, if_pos hex]
      rw [h1]
      have hex2 : (modifyFirst (fun row => decide (row.r = n))
          (upsertInRow doc.hasNs v ref) doc.rows).any
            (fun row => decide (row.r = n)) = true := by
        rw [any_modifyFirst _ _ _ (fun a => by rw [upsertInRow_r])]
        exact hex
      unfold writeCell
      rw [hr]
      dsimp only
      rw [if_pos hns, if_pos hex2]
      simp only [XDoc.mk.injEq, true_and]
      exact modifyFirst_idem _ _ _ (fun a => by rw [upsertInRow_r])
        (upsertInRow_idem doc.hasNs v ref)
    · by_cases hsd : doc.hasSheetData = true
      · have h1 : writeCell doc ref v = { doc with
            rows := doc.rows ++ [upsertInRow doc.hasNs v ref ⟨n, []⟩] } := by
          unfold writeCell
          rw [hr]
          dsimp only
          rw [if_pos hns, if_neg (by simp [hex]), if_pos hsd]
        rw [h1]
        have hnewr : (fun row => decide (row.r = n))
            (upsertInRow doc.hasNs v ref ⟨n, []⟩) = true := by
          dsimp only
          rw [upsertInRow_r]
          simp
        have hex2 : (doc.rows ++ [upsertInRow doc.hasNs v ref ⟨n, []⟩]).any
            (fun row => decide (row.r = n)) = true := by
          rw [List.any_append]
          simp [hnewr]
        unfold writeCell
        rw [hr]
        dsimp only
        rw [if_pos hns, if_pos hex2]
        simp only [XDoc.mk.injEq, true_and]
        rw [modifyFirst_append_left _ _ _ _
          (fun a ha => by
            by_contra hpa
            simp only [Bool.not_eq_false] at hpa
            exact hex (List.any_eq_true.mpr ⟨a, ha, hpa⟩))]
        simp only [modifyFirst, hnewr, if_true, List.append_cancel_left_eq]
        rw [upsertInRow_idem]
      · have h1 : writeCell doc ref v = doc := by
          unfold writeCell
          rw [hr]
          dsimp only
          rw [if_pos hns, if_neg (by simp [hex]), if_neg hsd]
        rw [h1, h1]

theorem applyWrites_cons (doc : XDoc) (p : Str × Str) (t : List (Str × Str)) :
    applyWrites doc (p :: t) = applyWrites (writeCell doc p.1 p.2) t := rfl

theorem applyWrites_hasNs (ws : List (Str × Str)) (doc : XDoc) :
    (applyWrites doc ws).hasNs = doc.hasNs := by
  induction ws generalizing doc with
  | nil => rfl
  | cons p t ih =>
    rw [applyWrites_cons, ih, writeCell_hasNs]

theorem applyWrites_hasSheetData (ws : List (Str × Str)) (doc : XDoc) :
    (applyWrites doc ws).hasSheetData = doc.hasSheetData := by
  induction ws generalizing doc with
  | nil => rfl
  | cons p t ih =>
    rw [applyWrites_cons, ih, writeCell_hasSheetData]

theorem lookupCell_applyWrites_ne (ws : List (Str × Str)) (doc : XDoc) (ref : Str)
    (h : ∀ p ∈ ws, p.1 ≠ ref) :
    lookupCell (applyWrites doc ws) ref = lookupCell doc ref := by
  induction ws generalizing doc with
  | nil => rfl
  | cons p t ih =>
    rw [applyWrites_cons, ih _ fun q hq => h q (by simp [hq])]
    exact lookupCell_writeCell_ne doc p.1 p.2 ref (Ne.symm (h p (by simp)))

theorem lookupCell_applyWrites_mem (ws : List (Str × Str)) :
    ∀ (doc : XDoc) (ref v : Str), doc.hasNs = true → doc.hasSheetData = true →
      (rowNumOfRef ref).isSome = true → (ref, v) ∈ ws →
      (ws.map Prod.fst).Nodup →
      (lookupCell (applyWrites doc ws) ref).map cellContent
        = some (inlineContent v) := by
  induction ws with
  | nil =>
    intro doc ref v _ _ _ hmem _
    simp at hmem
  | cons p t ih =>
    intro doc ref v hns hsd hrow hmem hnd
    rw [applyWrites_cons]
    simp only [List.map_cons, List.nodup_cons] at hnd
    rcases List.mem_cons.mp hmem with heq | hmem'
    · obtain rfl := heq.symm
      have hfree : ∀ q ∈ t, q.1 ≠ ref := by
        intro q hq habs
        have hq1 : q.1 ∈ t.map Prod.fst := List.mem_map_of_mem Prod.fst hq
        rw [habs] at hq1
        exact hnd.1 hq1
      rw [lookupCell_applyWrites_ne t _ ref hfree]
      exact lookupCell_writeCell_self doc ref v hns hsd hrow
    · exact ih (writeCell doc p.1 p.2) ref v
        ((writeCell_hasNs doc p.1 p.2).trans hns)
        ((writeCell_hasSheetData doc p.1 p.2).trans hsd)
        hrow hmem' hnd.2

theorem digitChar_toNat (d : ℕ) (hd : d < 10) : (Nat.digitChar d).toNat - 48 = d := by
  interval_cases d <;> rfl

theorem digitChar_isDigit (d : ℕ) (hd : d < 10) : (Nat.digitChar d).isDigit = true := by
  interval_cases d <;> decide

theorem natOfChars_append_single (A : Str) (c : Char) :
    natOfChars (A ++ [c]) = 10 * natOfChars A + (c.toNat - 48) := by
  unfold natOfChars
  rw [List.foldl_append]
  rfl

theorem natOfChars_revmap (L : List ℕ) (hL : ∀ d ∈ L, d < 10) :
    natOfChars ((L.reverse).map Nat.digitChar) = Nat.ofDigits 10 L := by
  induction L with
  | nil => rfl
  | cons d t ih =>
    rw [List.reverse_cons, List.map_append]
    rw [show List.map Nat.digitChar [d] = [Nat.digitChar d] from rfl]
    rw [natOfChars_append_single]
    rw [ih fun x hx => hL x (by simp [hx])]
    rw [Nat.ofDigits_cons]
    rw [digitChar_toNat d (hL d (by simp))]
    ring

theorem natOfChars_natToChars (n : ℕ) : natOfChars (natToChars n) = n := by
  unfold natToChars
  by_cases h0 : n = 0
  · subst h0
    decide
  · rw [if_neg h0]
    rw [natOfChars_revmap _ fun d hd => Nat.digits_lt_base (by norm_num) hd]
    exact Nat.ofDigits_digits 10 n

theorem natToChars_inj {a b : ℕ} (h : natToChars a = natToChars b) : a = b := by
  rw [← natOfChars_natToChars a, h, natOfChars_natToChars]

theorem natToChars_isDigit (n : ℕ) : ∀ c ∈ natToChars n, c.isDigit = true := by
  unfold natToChars
  split_ifs with h0
  · intro c hc
    simp only [List.mem_singleton] at hc
    subst hc
    decide
  · intro c hc
    simp only [List.mem_map, List.mem_reverse] at hc
    obtain ⟨d, hd, rfl⟩ := hc
    exact digitChar_isDigit d (Nat.digits_lt_base (by norm_num) hd)

theorem natToChars_ne_nil (n : ℕ) : natToChars n ≠ [] := by
  unfold natToChars
  split_ifs with h0
  · simp
  · simp only [ne_eq, List.map_eq_nil_iff, List.reverse_eq_nil_iff]
    exact Nat.digits_ne_nil_iff_ne_zero.mpr h0

theorem rowNumOfRef_cellRef (col : Char) (r : ℕ) (hcol : col.isDigit = false) :
    rowNumOfRef (cellRef col r) = some r := by
  unfold rowNumOfRef cellRef
  simp only [List.filter_cons, hcol, Bool.false_eq_true, if_false]
  rw [List.filter_eq_self.mpr (natToChars_isDigit r)]
  rw [if_neg (natToChars_ne_nil r)]
  rw [natOfChars_natToChars]

theorem cellRef_inj {col col' : Char} {r r' : ℕ}
    (h : cellRef col r = cellRef col' r') : col = col' ∧ r = r' := by
  unfold cellRef at h
  rw [List.cons.injEq] at h
  exact ⟨h.1, natToChars_inj h.2⟩

theorem strF2_eq_cellRef : strOf "F2" = cellRef 'F' 2 := by
  unfold cellRef natToChars
  rw [if_neg (by norm_num)]
  have h2 : Nat.digits 10 2 = [2] := by
    rw [Nat.digits_def' (by norm_num : (1 : ℕ) < 10) (by norm_num : 0 < 2)]
    norm_num
  rw [h2]
  rfl

theorem cellRef_E_ne_F (r r' : ℕ) : cellRef 'E' r ≠ cellRef 'F' r' := by
  intro h
  exact absurd (cellRef_inj h).1 (by decide)

theorem markingWrites_fst (res : CheckResult) :
    (markingWrites res).map Prod.fst = strOf "F2" ::
      ((((List.range (min res.results.length 40)).map fun i => 4 + i)
        ++ ((List.range' res.results.length
              (40 - res.results.length)).map fun i => 4 + i)).map
          fun r => [cellRef 'E' r, cellRef 'F' r]).flatten := by
  unfold markingWrites
  simp only [List.map_cons, List.map_append, List.map_flatten, List.map_map,
    List.flatten_append]
  rfl

theorem slotRows_bounds (n : ℕ) :
    ∀ r ∈ ((List.range (min n 40)).map fun i => 4 + i)
        ++ ((List.range' n (40 - n)).map fun i => 4 + i),
      4 ≤ r ∧ r ≤ 43 := by
  intro r hr
  rcases List.mem_append.mp hr with h | h
  · obtain ⟨i, hi, rfl⟩ := List.mem_map.mp h
    rw [List.mem_range] at hi
    omega
  · obtain ⟨i, hi, rfl⟩ := List.mem_map.mp h
    rw [List.mem_range'_1] at hi
    omega

theorem slotRows_nodup (n : ℕ) :
    (((List.range (min n 40)).map fun i => 4 + i)
      ++ ((List.range' n (40 - n)).map fun i => 4 + i)).Nodup := by
  apply List.Nodup.append
  · exact List.Nodup.map (fun a b h => by omega) (List.nodup_range _)
  · exact List.Nodup.map (fun a b h => by omega) (List.nodup_range' _ _)
  · intro x hx hy
    obtain ⟨i, hi, rfl⟩ := List.mem_map.mp hx
    obtain ⟨j, hj, hij⟩ := List.mem_map.mp hy
    rw [List.mem_range] at hi
    rw [List.mem_range'_1] at hj
    omega

theorem refsBlocks_nodup (R : List ℕ) (hR : R.Nodup) :
    ((R.map fun r => [cellRef 'E' r, cellRef 'F' r]).flatten).Nodup := by
  induction R with
  | nil => simp
  | cons r t ih =>
    rw [List.map_cons, List.flatten_cons]
    rw [List.nodup_cons] at hR
    apply List.Nodup.append
    · rw [List.nodup_cons]
      refine ⟨?_, List.nodup_singleton _⟩
      intro h
      rw [List.mem_singleton] at h
      exact cellRef_E_ne_F r r h
    · exact ih hR.2
    · intro x hx hmem
      rw [List.mem_flatten] at hmem
      obtain ⟨l, hl, hxl⟩ := hmem
      obtain ⟨r', hr', rfl⟩ := List.mem_map.mp hl
      have hrr : r = r' := by
        simp only [List.mem_cons, List.mem_singleton, List.not_mem_nil,
          or_false] at hx hxl
        rcases hx with hx | hx <;> rcases hxl with hxl | hxl <;>
          rw [hx] at hxl
        · exact (cellRef_inj hxl).2
        · exact absurd hxl (cellRef_E_ne_F r r')
        · exact absurd hxl.symm (cellRef_E_ne_F r' r)
        · exact (cellRef_inj hxl).2
      exact hR.1 (hrr ▸ hr')

theorem markingRefs_nodup (res : CheckResult) :
    ((markingWrites res).map Prod.fst).Nodup := by
  rw [markingWrites_fst]
  rw [List.nodup_cons]
  constructor
  · intro h
    rw [List.mem_flatten] at h
    obtain ⟨l, hl, hF2⟩ := h
    obtain ⟨r, hr, rfl⟩ := List.mem_map.mp hl
    have hb := slotRows_bounds res.results.length r hr
    rw [strF2_eq_cellRef] at hF2
    simp only [List.mem_cons, List.mem_singleton, List.not_mem_nil,
      or_false] at hF2
    rcases hF2 with h | h
    · exact absurd (cellRef_inj h).1 (by decide)
    · have := (cellRef_inj h).2
      omega
  · exact refsBlocks_nodup _ (slotRows_nodup _)

theorem mem_markingWrites_E (res : CheckResult) (i : ℕ)
    (hi : i < min res.results.length 40) :
    (cellRef 'E' (4 + i), mapResultOutcome (res.results.getD i default).result)
      ∈ markingWrites res := by
  unfold markingWrites
  refine List.mem_cons_of_mem _ (List.mem_append_left _ ?_)
  rw [List.mem_flatten]
  refine ⟨_, List.mem_map_of_mem _ (List.mem_range.mpr hi), ?_⟩
  simp

theorem mem_markingWrites_F (res : CheckResult) (i : ℕ)
    (hi : i < min res.results.length 40) :
    (cellRef 'F' (4 + i), ((res.results.getD i default).note).getD [])
      ∈ markingWrites res := by
  unfold markingWrites
  refine List.mem_cons_of_mem _ (List.mem_append_left _ ?_)
  rw [List.mem_flatten]
  refine ⟨_, List.mem_map_of_mem _ (List.mem_range.mpr hi), ?_⟩
  simp

theorem mem_markingWrites_blankE (res : CheckResult) (i : ℕ)
    (h1 : res.results.length ≤ i) (h2 : i < 40) :
    (cellRef 'E' (4 + i), ([] : Str)) ∈ markingWrites res := by
  unfold markingWrites
  refine List.mem_cons_of_mem _ (List.mem_append_right _ ?_)
  rw [List.mem_flatten]
  refine ⟨_, List.mem_map_of_mem _ (List.mem_range'_1.mpr ⟨h1, by omega⟩), ?_⟩
  simp

theorem mem_markingWrites_blankF (res : CheckResult) (i : ℕ)
    (h1 : res.results.length ≤ i) (h2 : i < 40) :
    (cellRef 'F' (4 + i), ([] : Str)) ∈ markingWrites res := by
  unfold markingWrites
  refine List.mem_cons_of_mem _ (List.mem_append_right _ ?_)
  rw [List.mem_flatten]
  refine ⟨_, List.mem_map_of_mem _ (List.mem_range'_1.mpr ⟨h1, by omega⟩), ?_⟩
  simp

/-- C8: a cell write leaves the located-or-created cell holding exactly the
inline-string content of the written value — in particular, after writing an
empty value the cell has no type attribute and no child content — and writing
the same value twice to a coordinate leaves the document identical to writing
it once. -/
theorem C8_cell_write_semantics :
    (∀ (doc : XDoc) (ref v : Str), doc.hasNs = true → doc.hasSheetData = true →
      (rowNumOfRef ref).isSome = true →
      (lookupCell (writeCell doc ref v) ref).map cellContent
        = some (inlineContent v)) ∧
    (∀ (doc : XDoc) (ref : Str), doc.hasNs = true → doc.hasSheetData = true →
      (rowNumOfRef ref).isSome = true →
      (lookupCell (writeCell doc ref []) ref).map cellContent
        = some (none, [])) ∧
    (∀ (doc : XDoc) (ref v : Str),
      writeCell (writeCell doc ref v) ref v = writeCell doc ref v) :=
  ⟨fun doc ref v hns hsd hrow => lookupCell_writeCell_self doc ref v hns hsd hrow,
   fun doc ref hns hsd hrow => lookupCell_writeCell_self doc ref [] hns hsd hrow,
   writeCell_idem⟩

/-- Witness for C8 at a concrete input: writing "hello" to C5 of the empty
document leaves C5 holding the inline string "hello". -/
theorem C8_cell_write_semantics_witness :
    (lookupCell (writeCell sampleDoc (strOf "C5") (strOf "hello"))
        (strOf "C5")).map cellContent
      = some (inlineContent (strOf "hello")) :=
  C8_cell_write_semantics.1 sampleDoc (strOf "C5") (strOf "hello") rfl rfl (by decide)

/-- C7: the marking-sheet patch writes, for each of the first
min(outcomes, 40) word slots, the mapped result string into the result cell
and the note or blank into the comment cell of that slot's row, and blanks
both cells of every slot from the outcome count up to slot 40; the result
mapping sends correct to "Got it", incorrect to "Not yet", and anything else
to blank. -/
theorem C7_marking_sheet_patch (doc : XDoc) (res : CheckResult)
    (hns : doc.hasNs = true) (hsd : doc.hasSheetData = true) :
    (∀ i, i < min res.results.length 40 →
      (lookupCell (updateMarkingSheet doc res) (cellRef 'E' (4 + i))).map cellContent
        = some (inlineContent (mapResultOutcome (res.results.getD i default).result)) ∧
      (lookupCell (updateMarkingSheet doc res) (cellRef 'F' (4 + i))).map cellContent
        = some (inlineContent ((res.results.getD i default).note.getD []))) ∧
    (∀ i, res.results.length ≤ i → i < 40 →
      (lookupCell (updateMarkingSheet doc res) (cellRef 'E' (4 + i))).map cellContent
        = some (none, []) ∧
      (lookupCell (updateMarkingSheet doc res) (cellRef 'F' (4 + i))).map cellContent
        = some (none, [])) ∧
    mapResultOutcome .correct = strOf "Got it" ∧
    mapResultOutcome .incorrect = strOf "Not yet" ∧
    mapResultOutcome .not_attempted = [] := by
  have hE : ('E' : Char).isDigit = false := by decide
  have hF : ('F' : Char).isDigit = false := by decide
  refine ⟨?_, ?_, rfl, rfl, rfl⟩
  · intro i hi
    constructor
    · exact lookupCell_applyWrites_mem (markingWrites res) doc _ _ hns hsd
        (by rw [rowNumOfRef_cellRef 'E' (4 + i) hE]; rfl)
        (mem_markingWrites_E res i hi) (markingRefs_nodup res)
    · exact lookupCell_applyWrites_mem (markingWrites res) doc _ _ hns hsd
        (by rw [rowNumOfRef_cellRef 'F' (4 + i) hF]; rfl)
        (mem_markingWrites_F res i hi) (markingRefs_nodup res)
  · intro i h1 h2
    constructor
    · exact lookupCell_applyWrites_mem (markingWrites res) doc _ _ hns hsd
        (by rw [rowNumOfRef_cellRef 'E' (4 + i) hE]; rfl)
        (mem_markingWrites_blankE res i h1 h2) (markingRefs_nodup res)
    · exact lookupCell_applyWrites_mem (markingWrites res) doc _ _ hns hsd
        (by rw [rowNumOfRef_cellRef 'F' (4 + i) hF]; rfl)
        (mem_markingWrites_blankF res i h1 h2) (markingRefs_nodup res)

/-- Witness for C7 at a concrete input: the empty document and the blank
record — the theorem instantiates with both hypotheses discharged. -/
theorem C7_marking_sheet_patch_witness :
    (∀ i, i < min sampleCheck.results.length 40 →
      (lookupCell (updateMarkingSheet sampleDoc sampleCheck)
          (cellRef 'E' (4 + i))).map cellContent
        = some (inlineContent
            (mapResultOutcome (sampleCheck.results.getD i default).result)) ∧
      (lookupCell (updateMarkingSheet sampleDoc sampleCheck)
          (cellRef 'F' (4 + i))).map cellContent
        = some (inlineContent ((sampleCheck.results.getD i default).note.getD []))) ∧
    (∀ i, sampleCheck.results.length ≤ i → i < 40 →
      (lookupCell (updateMarkingSheet sampleDoc sampleCheck)
          (cellRef 'E' (4 + i))).map cellContent = some (none, []) ∧
      (lookupCell (updateMarkingSheet sampleDoc sampleCheck)
          (cellRef 'F' (4 + i))).map cellContent = some (none, [])) ∧
    mapResultOutcome .correct = strOf "Got it" ∧
    mapResultOutcome .incorrect = strOf "Not yet" ∧
    mapResultOutcome .not_attempted = [] :=
  C7_marking_sheet_patch sampleDoc sampleCheck rfl rfl

/-- C10: the marking-sheet patch touches only the set-name cell F2 and the
result column E and comment column F of the 40 word-slot rows 4..43: every
write lands on one of those references, any reference outside them reads back
unchanged, and in particular every cell of columns B, C and D — item number,
word text, grapheme type — is untouched, so the exported word text is whatever
the template already contained. -/
theorem C10_marking_sheet_frame (doc : XDoc) (res : CheckResult) :
    (∀ p ∈ markingWrites res, p.1 = strOf "F2" ∨
      ∃ r, 4 ≤ r ∧ r ≤ 43 ∧ (p.1 = cellRef 'E' r ∨ p.1 = cellRef 'F' r)) ∧
    (∀ ref : Str, (∀ p ∈ markingWrites res, p.1 ≠ ref) →
      lookupCell (updateMarkingSheet doc res) ref = lookupCell doc ref) ∧
    (∀ (c : Char) (rest : Str), c = 'B' ∨ c = 'C' ∨ c = 'D' →
      lookupCell (updateMarkingSheet doc res) (c :: rest)
        = lookupCell doc (c :: rest)) := by
  have hshape : ∀ p ∈ markingWrites res, p.1 = strOf "F2" ∨
      ∃ r, 4 ≤ r ∧ r ≤ 43 ∧ (p.1 = cellRef 'E' r ∨ p.1 = cellRef 'F' r) := by
    intro p hp
    have hp1 : p.1 ∈ (markingWrites res).map Prod.fst :=
      List.mem_map_of_mem Prod.fst hp
    rw [markingWrites_fst] at hp1
    rcases List.mem_cons.mp hp1 with h | h
    · exact Or.inl h
    · right
      rw [List.mem_flatten] at h
      obtain ⟨l, hl, hxl⟩ := h
      obtain ⟨r, hr, rfl⟩ := List.mem_map.mp hl
      have hb := slotRows_bounds res.results.length r hr
      simp only [List.mem_cons, List.mem_singleton, List.not_mem_nil,
        or_false] at hxl
      exact ⟨r, hb.1, hb.2, hxl⟩
  refine ⟨hshape, ?_, ?_⟩
  · intro ref h
    exact lookupCell_applyWrites_ne (markingWrites res) doc ref h
  · intro c rest hc
    apply lookupCell_applyWrites_ne
    intro p hp habs
    rcases hshape p hp with h | ⟨r, _, _, h | h⟩ <;>
      · rw [h] at habs
        rcases hc with rfl | rfl | rfl <;> simp_all [cellRef, strOf]

/-- Witness for C10 at a concrete input: cell C5 — word-text column — of a
one-row document is unchanged by the patch. -/
theorem C10_marking_sheet_frame_witness :
    lookupCell (updateMarkingSheet sampleDoc sampleCheck) ('C' :: strOf "5")
      = lookupCell sampleDoc ('C' :: strOf "5") :=
  (C10_marking_sheet_frame sampleDoc sampleCheck).2.2 'C' (strOf "5")
    (Or.inr (Or.inl rfl))

/-- C9 (counterexample): with every step succeeding except the workbook XML
parse inside the recalculation-marking step, that step fails with an XML parse
error, yet the export still completes with a download and shows no message —
because `markWorkbookForRecalculation` catches its own errors and only logs
them, a failing export step does not abort the export. -/
theorem C9_swallowed_recalc_failure_counterexample :
    markWorkbookForRecalculation
        ⟨true, true, true, true, true, true, false, true⟩ = .error () ∧
    exportResultsToExcel ⟨true, true, true, true, true, true, false, true⟩
      = .downloaded := by
  constructor
  · rfl
  · rfl

/-- C9 (amended): the export never propagates an exception — every run either
downloads or shows the one generic alert; a failure of the template load, the
worksheet extraction, the cover or marking XML parse, or the archive
generation aborts the export with the generic alert and no download; and when
all those steps succeed the export downloads, regardless of failures inside
the recalculation-marking step, which are swallowed and only logged. -/
theorem C9_export_failure_semantics :
    (∀ env : ExportEnv, exportResultsToExcel env = .downloaded ∨
      exportResultsToExcel env = .alerted genericExportAlert) ∧
    (∀ env : ExportEnv,
      (env.templateOk = false ∨ env.coverPresent = false ∨
        env.markingPresent = false ∨ env.coverParses = false ∨
        env.markingParses = false ∨ env.generateOk = false) →
      exportResultsToExcel env = .alerted genericExportAlert) ∧
    (∀ env : ExportEnv, env.templateOk = true → env.coverPresent = true →
      env.markingPresent = true → env.coverParses = true →
      env.markingParses = true → env.generateOk = true →
      exportResultsToExcel env = .downloaded) := by
  refine ⟨?_, ?_, ?_⟩ <;>
    · intro env
      rcases env with ⟨t, cp, mp, cps, mps, wp, wps, g⟩
      cases t <;> cases cp <;> cases mp <;> cases cps <;> cases mps <;>
        cases wp <;> cases wps <;> cases g <;> decide

/-- Witness for C9's amended theorem at a concrete input: a failed template
load yields the generic alert. -/
theorem C9_export_failure_semantics_witness :
    exportResultsToExcel ⟨false, true, true, true, true, true, true, true⟩
      = .alerted genericExportAlert :=
  C9_export_failure_semantics.2.1 ⟨false, true, true, true, true, true, true, true⟩
    (Or.inl rfl)

end Phonics
